import Mathlib

set_option maxHeartbeats 1000000
set_option maxRecDepth 20000

/-!
Shallow embedding of LogBuddy (src/main.rs), a directory-scanning log
utility, together with proofs about its tokenizer, frequency accumulator,
search previews, extension filter, preview truncation and argument parsing.

Rust strings are modelled as lists of bytes (`List Nat`, each entry one
UTF-8 code unit).  Operations that can panic in Rust (string slicing at a
non-char-boundary index) return `Option`, with `none` marking the panic.
Loops are modelled so that every definition evaluates by kernel reduction:
index-advancing `while` loops become closed index arithmetic or a
fuel-indexed recursion whose fuel is supplied from the input length.
-/

namespace LogBuddy

/-- The bytes of a Rust `String` / `&str`. -/
abbrev ByteStr := List Nat

/-- `is_word_char` (src/main.rs): ASCII letter (either case), ASCII digit, or underscore. -/
def is_word_char (b : Nat) : Bool :=
  decide ((65 ≤ b ∧ b ≤ 90) ∨ (97 ≤ b ∧ b ≤ 122) ∨ (48 ≤ b ∧ b ≤ 57) ∨ b = 95)

/-- ASCII case fold of one byte.  On the tokens produced by `tokenize_words`
(which consist of ASCII word characters only) this agrees byte-for-byte with
Rust's `str::to_lowercase`. -/
def lower_byte (b : Nat) : Nat :=
  if 65 ≤ b ∧ b ≤ 90 then b + 32 else b

/-- A UTF-8 continuation byte (`0x80..=0xBF`). -/
def isCont (b : Nat) : Bool := decide (128 ≤ b ∧ b ≤ 191)

/-- Rust `str::is_char_boundary`: index 0 and the length are boundaries, and an
interior index is a boundary iff the byte there is not a continuation byte. -/
def is_char_boundary (s : ByteStr) (i : Nat) : Bool :=
  if i = 0 then true
  else
    match s[i]? with
    | none => decide (i = s.length)
    | some b => decide (b < 128 ∨ 192 ≤ b)

/-- Lower bound of the first continuation byte after a given lead byte
(RFC 3629: `E0` forces `A0..`, `F0` forces `90..`, otherwise `80..`). -/
def contLo (b : Nat) : Nat :=
  if b = 224 then 160 else if b = 240 then 144 else 128

/-- Upper bound of the first continuation byte after a given lead byte
(RFC 3629: `ED` forces `..9F`, `F4` forces `..8F`, otherwise `..BF`). -/
def contHi (b : Nat) : Nat :=
  if b = 237 then 159 else if b = 244 then 143 else 191

/-- State machine for UTF-8 validity: `need` continuation bytes are still
expected, the next of which must lie in `lo..=hi` (any later ones in
`128..=191`). -/
def validUtf8From : Nat → Nat → Nat → ByteStr → Bool
  | need, _, _, [] => decide (need = 0)
  | need, lo, hi, b :: rest =>
    if 0 < need then
      if lo ≤ b ∧ b ≤ hi then validUtf8From (need - 1) 128 191 rest else false
    else if b ≤ 127 then validUtf8From 0 128 191 rest
    else if 194 ≤ b ∧ b ≤ 223 then validUtf8From 1 (contLo b) (contHi b) rest
    else if 224 ≤ b ∧ b ≤ 239 then validUtf8From 2 (contLo b) (contHi b) rest
    else if 240 ≤ b ∧ b ≤ 244 then validUtf8From 3 (contLo b) (contHi b) rest
    else false

/-- Validity of a byte sequence as UTF-8 (the invariant of a Rust `String`),
following the byte-pattern table of RFC 3629 (no overlong forms, no
surrogates, at most U+10FFFF). -/
def validUtf8 (s : ByteStr) : Bool := validUtf8From 0 128 191 s

/-- The `while i < bytes.len() && !is_word_char(bytes[i]) { i += 1 }` loop of
`tokenize_words`: the index advances over the maximal separator run starting
at `i`. -/
def skipNonWord (s : ByteStr) (i : Nat) : Nat :=
  i + ((s.drop i).takeWhile (fun b => !is_word_char b)).length

/-- The `while i < bytes.len() && is_word_char(bytes[i]) { i += 1 }` loop of
`tokenize_words`: the index advances over the maximal word-character run
starting at `i`. -/
def skipWord (s : ByteStr) (i : Nat) : Nat :=
  i + ((s.drop i).takeWhile is_word_char).length

/-- The byte slice `&text[a..b]` (indices assumed in range, char-boundary
checks tracked by the callers). -/
def slice (s : ByteStr) (a b : Nat) : ByteStr := (s.take b).drop a

theorem length_takeWhile_add_dropWhile {α : Type} (p : α → Bool) (l : List α) :
    (l.takeWhile p).length + (l.dropWhile p).length = l.length := by
  rw [← List.length_append, List.takeWhile_append_dropWhile]

theorem length_dropWhile_le {α : Type} (p : α → Bool) (l : List α) :
    (l.dropWhile p).length ≤ l.length := by
  have := length_takeWhile_add_dropWhile p l
  omega

theorem drop_length_takeWhile {α : Type} (p : α → Bool) (l : List α) :
    l.drop (l.takeWhile p).length = l.dropWhile p := by
  induction l with
  | nil => rfl
  | cons a t ih =>
    by_cases h : p a
    · simp only [List.takeWhile_cons_of_pos h, List.dropWhile_cons_of_pos h, List.length_cons]
      exact ih
    · simp [List.takeWhile_cons_of_neg h, List.dropWhile_cons_of_neg h]

theorem take_length_takeWhile {α : Type} (p : α → Bool) (l : List α) :
    l.take (l.takeWhile p).length = l.takeWhile p := by
  induction l with
  | nil => rfl
  | cons a t ih =>
    by_cases h : p a
    · simp only [List.takeWhile_cons_of_pos h, List.length_cons, List.take_succ_cons]
      rw [ih]
    · simp [List.takeWhile_cons_of_neg h]

theorem head_of_dropWhile_cons {α : Type} (p : α → Bool) :
    ∀ (l : List α) (a : α) (t : List α), l.dropWhile p = a :: t → p a = false := by
  intro l
  induction l with
  | nil => intro a t h; simp at h
  | cons x xs ih =>
    intro a t h
    by_cases hx : p x
    · rw [List.dropWhile_cons_of_pos hx] at h
      exact ih a t h
    · rw [List.dropWhile_cons_of_neg hx] at h
      injection h with h1 _
      subst h1
      simpa using hx

theorem le_skipNonWord (s : ByteStr) (i : Nat) : i ≤ skipNonWord s i := by
  unfold skipNonWord
  omega

theorem le_skipWord (s : ByteStr) (i : Nat) : i ≤ skipWord s i := by
  unfold skipWord
  omega

theorem skipNonWord_le_length (s : ByteStr) (i : Nat) (h : i ≤ s.length) :
    skipNonWord s i ≤ s.length := by
  unfold skipNonWord
  have h1 := (List.takeWhile_prefix (l := s.drop i) (fun b => !is_word_char b)).length_le
  rw [List.length_drop] at h1
  omega

theorem skipWord_le_length (s : ByteStr) (i : Nat) (h : i ≤ s.length) :
    skipWord s i ≤ s.length := by
  unfold skipWord
  have h1 := (List.takeWhile_prefix (l := s.drop i) is_word_char).length_le
  rw [List.length_drop] at h1
  omega

theorem drop_skipNonWord (s : ByteStr) (i : Nat) :
    s.drop (skipNonWord s i) = (s.drop i).dropWhile (fun b => !is_word_char b) := by
  unfold skipNonWord
  rw [← List.drop_drop, drop_length_takeWhile]

theorem drop_skipWord (s : ByteStr) (i : Nat) :
    s.drop (skipWord s i) = (s.drop i).dropWhile is_word_char := by
  unfold skipWord
  rw [← List.drop_drop, drop_length_takeWhile]

theorem slice_skipWord (s : ByteStr) (i : Nat) :
    slice s i (skipWord s i) = (s.drop i).takeWhile is_word_char := by
  unfold slice skipWord
  rw [← List.take_drop, take_length_takeWhile]

theorem is_word_char_lt_128 (b : Nat) (h : is_word_char b = true) : b < 128 := by
  simp [is_word_char] at h
  omega

theorem getElem?_of_drop_cons (s : ByteStr) (n : Nat) (a : Nat) (t : ByteStr)
    (h : s.drop n = a :: t) : s[n]? = some a := by
  have h0 : s[n + 0]? = some a := by
    rw [← List.getElem?_drop, h]
    simp
  simpa using h0

theorem skipNonWord_getElem? (s : ByteStr) (i : Nat) (h : skipNonWord s i < s.length) :
    ∃ a, s[skipNonWord s i]? = some a ∧ is_word_char a = true := by
  have hne : s.drop (skipNonWord s i) ≠ [] := by
    rw [Ne, List.drop_eq_nil_iff]
    omega
  obtain ⟨a, t, hat⟩ := List.exists_cons_of_ne_nil hne
  have hword : is_word_char a = true := by
    have h2 := head_of_dropWhile_cons (fun b => !is_word_char b) (s.drop i) a t
      (by rw [← drop_skipNonWord]; exact hat)
    simpa using h2
  exact ⟨a, getElem?_of_drop_cons s _ a t hat, hword⟩

theorem skipWord_last (s : ByteStr) (i : Nat) (h : i < skipWord s i) :
    ∃ a, s[skipWord s i - 1]? = some a ∧ is_word_char a = true := by
  set t := (s.drop i).takeWhile is_word_char with ht
  have hk : skipWord s i = i + t.length := rfl
  have hkpos : 0 < t.length := by omega
  have e1 : (s.drop i).take t.length = t := take_length_takeWhile is_word_char (s.drop i)
  have h4 : t.length - 1 < t.length := by omega
  obtain ⟨a, ha⟩ : ∃ a, t[t.length - 1]? = some a := ⟨_, List.getElem?_eq_getElem h4⟩
  have hmem : a ∈ (s.drop i).takeWhile is_word_char := by
    rw [← ht]
    exact List.getElem?_mem ha
  refine ⟨a, ?_, List.mem_takeWhile_imp hmem⟩
  have hidx : skipWord s i - 1 = i + (t.length - 1) := by omega
  rw [hidx]
  calc s[i + (t.length - 1)]?
      = (s.drop i)[t.length - 1]? := (List.getElem?_drop s i _).symm
    _ = ((s.drop i).take t.length)[t.length - 1]? :=
        (List.getElem?_take_of_lt (by omega)).symm
    _ = t[t.length - 1]? := by rw [e1]
    _ = some a := ha

theorem contLo_ge (b : Nat) : 128 ≤ contLo b := by
  unfold contLo
  split_ifs <;> omega

theorem contHi_le (b : Nat) : contHi b ≤ 191 := by
  unfold contHi
  split_ifs <;> omega

/-- Every nonempty valid UTF-8 sequence starts with either an ASCII byte or a
lead byte `≥ 194` followed by one to three bytes in `128..=191`, in both cases
continuing with a valid remainder. -/
theorem validUtf8_decomp (s : ByteStr) (hv : validUtf8 s = true) :
    s = [] ∨
    (∃ b r, s = b :: r ∧ b ≤ 127 ∧ validUtf8 r = true) ∨
    (∃ b t r, s = b :: (t ++ r) ∧ 194 ≤ b ∧ t ≠ [] ∧
      (∀ x ∈ t, 128 ≤ x ∧ x ≤ 191) ∧ validUtf8 r = true) := by
  cases s with
  | nil => exact Or.inl rfl
  | cons b rest =>
    unfold validUtf8 at hv
    rw [validUtf8From, if_neg (by omega)] at hv
    by_cases h1 : b ≤ 127
    · rw [if_pos h1] at hv
      exact Or.inr (Or.inl ⟨b, rest, rfl, h1, hv⟩)
    · rw [if_neg h1] at hv
      by_cases h2 : 194 ≤ b ∧ b ≤ 223
      · rw [if_pos h2] at hv
        cases rest with
        | nil => rw [validUtf8From] at hv; simp at hv
        | cons c1 r =>
          rw [validUtf8From, if_pos (by omega)] at hv
          by_cases hc1 : contLo b ≤ c1 ∧ c1 ≤ contHi b
          · rw [if_pos hc1] at hv
            refine Or.inr (Or.inr ⟨b, [c1], r, by simp, by omega, by simp, ?_, hv⟩)
            intro x hx
            have hlo := contLo_ge b
            have hhi := contHi_le b
            simp at hx
            omega
          · rw [if_neg hc1] at hv
            simp at hv
      · rw [if_neg h2] at hv
        by_cases h3 : 224 ≤ b ∧ b ≤ 239
        · rw [if_pos h3] at hv
          cases rest with
          | nil => rw [validUtf8From] at hv; simp at hv
          | cons c1 rest1 =>
            rw [validUtf8From, if_pos (by omega)] at hv
            by_cases hc1 : contLo b ≤ c1 ∧ c1 ≤ contHi b
            · rw [if_pos hc1] at hv
              cases rest1 with
              | nil => rw [validUtf8From] at hv; simp at hv
              | cons c2 r =>
                rw [validUtf8From, if_pos (by omega)] at hv
                by_cases hc2 : (128 : Nat) ≤ c2 ∧ c2 ≤ 191
                · rw [if_pos hc2] at hv
                  refine Or.inr (Or.inr ⟨b, [c1, c2], r, by simp, by omega, by simp, ?_, hv⟩)
                  intro x hx
                  have hlo := contLo_ge b
                  have hhi := contHi_le b
                  simp at hx
                  rcases hx with hx | hx <;> omega
                · rw [if_neg hc2] at hv
                  simp at hv
            · rw [if_neg hc1] at hv
              simp at hv
        · rw [if_neg h3] at hv
          by_cases h4 : 240 ≤ b ∧ b ≤ 244
          · rw [if_pos h4] at hv
            cases rest with
            | nil => rw [validUtf8From] at hv; simp at hv
            | cons c1 rest1 =>
              rw [validUtf8From, if_pos (by omega)] at hv
              by_cases hc1 : contLo b ≤ c1 ∧ c1 ≤ contHi b
              · rw [if_pos hc1] at hv
                cases rest1 with
                | nil => rw [validUtf8From] at hv; simp at hv
                | cons c2 rest2 =>
                  rw [validUtf8From, if_pos (by omega)] at hv
                  by_cases hc2 : (128 : Nat) ≤ c2 ∧ c2 ≤ 191
                  · rw [if_pos hc2] at hv
                    cases rest2 with
                    | nil => rw [validUtf8From] at hv; simp at hv
                    | cons c3 r =>
                      rw [validUtf8From, if_pos (by omega)] at hv
                      by_cases hc3 : (128 : Nat) ≤ c3 ∧ c3 ≤ 191
                      · rw [if_pos hc3] at hv
                        refine Or.inr (Or.inr
                          ⟨b, [c1, c2, c3], r, by simp, by omega, by simp, ?_, hv⟩)
                        intro x hx
                        have hlo := contLo_ge b
                        have hhi := contHi_le b
                        simp at hx
                        rcases hx with hx | hx | hx <;> omega
                      · rw [if_neg hc3] at hv
                        simp at hv
                  · rw [if_neg hc2] at hv
                    simp at hv
              · rw [if_neg hc1] at hv
                simp at hv
          · rw [if_neg h4] at hv
            simp at hv

theorem validUtf8_head_not_cont (s : ByteStr) (hv : validUtf8 s = true) (c : Nat)
    (hc : s[0]? = some c) : isCont c = false := by
  rcases validUtf8_decomp s hv with hnil | ⟨b, r, hs, hb, _⟩ | ⟨b, t, r, hs, hb, _, _, _⟩
  · rw [hnil] at hc
    simp at hc
  · rw [hs] at hc
    have hbc : b = c := by simpa using hc
    subst hbc
    simp [isCont]
    omega
  · rw [hs] at hc
    have hbc : b = c := by simpa using hc
    subst hbc
    simp [isCont]
    omega

/-- In a valid UTF-8 sequence no continuation byte directly follows an ASCII
byte: the byte after an ASCII byte (if any) starts a new character. -/
theorem validUtf8_no_cont_after_ascii (s : ByteStr) (hv : validUtf8 s = true)
    (i a c : Nat) (ha : s[i]? = some a) (halt : a < 128)
    (hc : s[i + 1]? = some c) : isCont c = false := by
  rcases validUtf8_decomp s hv with hnil | ⟨b, r, hs, hb, hr⟩ | ⟨b, t, r, hs, hb, htne, htb, hr⟩
  · rw [hnil] at ha
    simp at ha
  · rw [hs] at ha hc
    have hlen : r.length < s.length := by
      rw [hs]
      simp
    cases i with
    | zero =>
      have hc0 : r[0]? = some c := by simpa using hc
      exact validUtf8_head_not_cont r hr c hc0
    | succ j =>
      exact validUtf8_no_cont_after_ascii r hr j a c (by simpa using ha) halt (by simpa using hc)
  · rw [hs] at ha hc
    have hlen : r.length < s.length := by
      rw [hs]
      simp only [List.length_cons, List.length_append]
      omega
    cases i with
    | zero =>
      have hba : b = a := by simpa using ha
      omega
    | succ j =>
      have ha' : (t ++ r)[j]? = some a := by simpa using ha
      have hc' : (t ++ r)[j + 1]? = some c := by simpa using hc
      by_cases hj : j < t.length
      · rw [List.getElem?_append_left hj] at ha'
        have hmem : a ∈ t := List.getElem?_mem ha'
        have := htb a hmem
        omega
      · push_neg at hj
        rw [List.getElem?_append_right hj] at ha'
        rw [List.getElem?_append_right (by omega)] at hc'
        have hidx : j + 1 - t.length = j - t.length + 1 := by omega
        rw [hidx] at hc'
        exact validUtf8_no_cont_after_ascii r hr (j - t.length) a c ha' halt hc'
termination_by s.length
decreasing_by
  all_goals simp_wf
  all_goals omega

theorem boundary_of_getElem? (s : ByteStr) (i a : Nat) (ha : s[i]? = some a)
    (hrange : a < 128 ∨ 192 ≤ a) : is_char_boundary s i = true := by
  unfold is_char_boundary
  by_cases h0 : i = 0
  · rw [if_pos h0]
  · rw [if_neg h0, ha]
    simpa using hrange

theorem boundary_at_length (s : ByteStr) : is_char_boundary s s.length = true := by
  unfold is_char_boundary
  by_cases h0 : s.length = 0
  · rw [if_pos h0]
  · rw [if_neg h0, List.getElem?_eq_none (Nat.le_refl _)]
    simp

/-- The loop of `tokenize_words` (src/main.rs): starting at byte index `i`,
skip separators, consume a maximal run of word characters, slice the original
string and lowercase it.  `none` models the panic of `&text[start..end]` when
either index is not a char boundary.  `fuel` bounds the number of loop
iterations; `tokenize_words` supplies `s.length`, which is always enough
because every iteration advances the index. -/
def tokenizeFrom (s : ByteStr) : Nat → Nat → Option (List ByteStr)
  | 0, _ => some []
  | fuel + 1, i =>
    if i < s.length then
      if skipNonWord s i < skipWord s (skipNonWord s i) then
        if is_char_boundary s (skipNonWord s i) &&
            is_char_boundary s (skipWord s (skipNonWord s i)) then
          match tokenizeFrom s fuel (skipWord s (skipNonWord s i)) with
          | some rest =>
            some ((slice s (skipNonWord s i) (skipWord s (skipNonWord s i))).map lower_byte
              :: rest)
          | none => none
        else none
      else some []
    else some []

/-- `tokenize_words` (src/main.rs): split text into lowercase words by walking
the bytes; `none` models a slicing panic. -/
def tokenize_words (s : ByteStr) : Option (List ByteStr) := tokenizeFrom s s.length 0

/-- Specification-level tokenizer: each maximal run of word characters,
lowercased, in order.  (Used to state what `tokenize_words` computes.) -/
def tokensSpec (s : ByteStr) : List ByteStr :=
  if h : s.dropWhile (fun b => !is_word_char b) = [] then []
  else
    ((s.dropWhile (fun b => !is_word_char b)).takeWhile is_word_char).map lower_byte ::
      tokensSpec ((s.dropWhile (fun b => !is_word_char b)).dropWhile is_word_char)
termination_by s.length
decreasing_by
  have h1 := length_dropWhile_le (fun b => !is_word_char b) s
  obtain ⟨a, t, hs⟩ := List.exists_cons_of_ne_nil h
  have ha : is_word_char a = true := by
    have h2 := head_of_dropWhile_cons (fun b => !is_word_char b) s a t hs
    simpa using h2
  rw [hs] at h1 ⊢
  rw [List.dropWhile_cons_of_pos ha]
  have h3 := length_dropWhile_le is_word_char t
  simp only [List.length_cons] at h1
  omega

/-- On valid UTF-8 input the slicing indices computed by `tokenize_words` are
always char boundaries, so tokenization never panics (for any fuel). -/
theorem tokenizeFrom_isSome (s : ByteStr) (hv : validUtf8 s = true) :
    ∀ (fuel i : Nat), (tokenizeFrom s fuel i).isSome = true := by
  intro fuel
  induction fuel with
  | zero =>
    intro i
    rfl
  | succ fuel ih =>
    intro i
    rw [tokenizeFrom]
    by_cases h : i < s.length
    · rw [if_pos h]
      by_cases hlt : skipNonWord s i < skipWord s (skipNonWord s i)
      · rw [if_pos hlt]
        have hstople : skipWord s (skipNonWord s i) ≤ s.length :=
          skipWord_le_length s (skipNonWord s i) (skipNonWord_le_length s i (Nat.le_of_lt h))
        have hstartlen : skipNonWord s i < s.length := by omega
        obtain ⟨a, ha, haw⟩ := skipNonWord_getElem? s i hstartlen
        have hb1 : is_char_boundary s (skipNonWord s i) = true :=
          boundary_of_getElem? s _ a ha (Or.inl (is_word_char_lt_128 a haw))
        have hb2 : is_char_boundary s (skipWord s (skipNonWord s i)) = true := by
          by_cases hstop : skipWord s (skipNonWord s i) = s.length
          · rw [hstop]
            exact boundary_at_length s
          · obtain ⟨p, hp, hpw⟩ := skipWord_last s (skipNonWord s i) hlt
            have hstp : skipWord s (skipNonWord s i) - 1 + 1 = skipWord s (skipNonWord s i) := by
              omega
            have hstoplt : skipWord s (skipNonWord s i) < s.length := by omega
            have hc : s[skipWord s (skipNonWord s i)]? = some s[skipWord s (skipNonWord s i)] :=
              List.getElem?_eq_getElem hstoplt
            have hnc := validUtf8_no_cont_after_ascii s hv (skipWord s (skipNonWord s i) - 1) p
              s[skipWord s (skipNonWord s i)] hp (is_word_char_lt_128 p hpw)
              (by rw [hstp]; exact hc)
            refine boundary_of_getElem? s _ _ hc ?_
            simp [isCont] at hnc
            omega
        rw [if_pos (by rw [hb1, hb2]; rfl)]
        have iha := ih (skipWord s (skipNonWord s i))
        cases htok : tokenizeFrom s fuel (skipWord s (skipNonWord s i)) with
        | some rest => simp
        | none =>
          rw [htok] at iha
          simp at iha
      · rw [if_neg hlt]
        simp
    · rw [if_neg h]
      simp

/-- `tokenize_words` never fails (panics) on valid UTF-8 input. -/
theorem tokenize_words_isSome (s : ByteStr) (hv : validUtf8 s = true) :
    (tokenize_words s).isSome = true :=
  tokenizeFrom_isSome s hv s.length 0

/-- What `tokenize_words` computes when it succeeds with sufficient fuel:
exactly the maximal lowercased word-character runs of the remaining input. -/
theorem tokenizeFrom_eq_tokensSpec (s : ByteStr) :
    ∀ (fuel i : Nat) (toks : List ByteStr), s.length ≤ i + fuel →
      tokenizeFrom s fuel i = some toks → toks = tokensSpec (s.drop i) := by
  intro fuel
  induction fuel with
  | zero =>
    intro i toks hfuel h
    have hnil : s.drop i = [] := List.drop_eq_nil_of_le (by omega)
    have htoks : toks = [] := by
      rw [tokenizeFrom] at h
      simpa using h.symm
    have hcond : ([] : ByteStr).dropWhile (fun b => !is_word_char b) = [] := rfl
    rw [htoks, hnil, tokensSpec, dif_pos hcond]
  | succ fuel ih =>
    intro i toks hfuel h
    rw [tokenizeFrom] at h
    by_cases hl : i < s.length
    · rw [if_pos hl] at h
      by_cases hlt : skipNonWord s i < skipWord s (skipNonWord s i)
      · rw [if_pos hlt] at h
        by_cases hb : (is_char_boundary s (skipNonWord s i) &&
            is_char_boundary s (skipWord s (skipNonWord s i))) = true
        · rw [if_pos hb] at h
          cases htok : tokenizeFrom s fuel (skipWord s (skipNonWord s i)) with
          | none =>
            rw [htok] at h
            simp at h
          | some rest =>
            rw [htok] at h
            simp only [Option.some.injEq] at h
            subst h
            have hstart := le_skipNonWord s i
            have ihr := ih (skipWord s (skipNonWord s i)) rest (by omega) htok
            have hd : (s.drop i).dropWhile (fun b => !is_word_char b) =
                s.drop (skipNonWord s i) := (drop_skipNonWord s i).symm
            have hstople : skipWord s (skipNonWord s i) ≤ s.length :=
              skipWord_le_length s (skipNonWord s i)
                (skipNonWord_le_length s i (Nat.le_of_lt hl))
            have hstartlen : skipNonWord s i < s.length := by omega
            have hne : (s.drop i).dropWhile (fun b => !is_word_char b) ≠ [] := by
              rw [hd, Ne, List.drop_eq_nil_iff]
              omega
            rw [tokensSpec, dif_neg hne]
            congr 1
            · rw [hd, ← slice_skipWord]
            · rw [ihr, hd, ← drop_skipWord]
        · rw [if_neg hb] at h
          simp at h
      · rw [if_neg hlt] at h
        simp only [Option.some.injEq] at h
        subst h
        have hdnil : (s.drop i).dropWhile (fun b => !is_word_char b) = [] := by
          rw [← drop_skipNonWord s i, List.drop_eq_nil_iff]
          by_contra hcon
          push_neg at hcon
          obtain ⟨a, ha, haw⟩ := skipNonWord_getElem? s i hcon
          have hne2 : s.drop (skipNonWord s i) ≠ [] := by
            rw [Ne, List.drop_eq_nil_iff]
            omega
          obtain ⟨x, xs, hxx⟩ := List.exists_cons_of_ne_nil hne2
          have hax : x = a := by
            have := getElem?_of_drop_cons s (skipNonWord s i) x xs hxx
            rw [ha] at this
            injection this with hinj
            exact hinj.symm
          have heq : skipWord s (skipNonWord s i) =
              skipNonWord s i + ((s.drop (skipNonWord s i)).takeWhile is_word_char).length :=
            rfl
          rw [hxx, hax, List.takeWhile_cons_of_pos haw] at heq
          simp only [List.length_cons] at heq
          omega
        rw [tokensSpec, dif_pos hdnil]
    · rw [if_neg hl] at h
      simp only [Option.some.injEq] at h
      subst h
      rw [tokensSpec, dif_pos (by rw [List.drop_eq_nil_of_le (by omega)]; rfl)]

/-- `tokenize_words` computes `tokensSpec` whenever it succeeds. -/
theorem tokenize_words_eq_tokensSpec (s : ByteStr) (toks : List ByteStr)
    (h : tokenize_words s = some toks) : toks = tokensSpec s := by
  have h1 := tokenizeFrom_eq_tokensSpec s s.length 0 toks (by omega) h
  simpa using h1

/-- Strip one trailing carriage return: the `\r\n` handling of Rust `str::lines`. -/
def stripCr (l : ByteStr) : ByteStr :=
  match l.getLast? with
  | some 13 => l.dropLast
  | _ => l

/-- Split at every `\n` (the terminators themselves removed); the result has
one more segment than there are newlines. -/
def splitNl : ByteStr → List ByteStr
  | [] => [[]]
  | b :: rest =>
    if b = 10 then [] :: splitNl rest
    else
      match splitNl rest with
      | [] => [[b]]
      | l :: ls => (b :: l) :: ls

/-- Rust `str::lines` over bytes: split at `\n`; each `\n`-terminated segment
has one trailing `\r` stripped; the final segment is dropped when empty (a
trailing terminator yields no extra line, and an empty input has no lines); an
unterminated final line is kept as-is, `\r` included, and still counts. -/
def rustLines (bs : ByteStr) : List ByteStr :=
  let segs := splitNl bs
  (segs.dropLast.map stripCr) ++
    (match segs.getLast? with
     | some [] => []
     | some l => [l]
     | none => [])

/-- Rust `str::contains(&str)`: substring test (over bytes). -/
def containsSub (needle : ByteStr) : ByteStr → Bool
  | [] => needle.isEmpty
  | a :: t => needle.isPrefixOf (a :: t) || containsSub needle t

/-- `str::to_lowercase`, modelled on its ASCII action (bytes ≥ 128 unchanged;
the multi-byte Unicode case foldings are outside this byte-level model and not
exercised by any claim). -/
def to_lowercase (s : ByteStr) : ByteStr := s.map lower_byte

/-- UTF-8 bytes of the ellipsis character `…` pushed by `trim_preview`. -/
def ellipsisBytes : ByteStr := [226, 128, 166]

/-- `trim_preview` (src/main.rs): keep a line of at most `max` BYTES unchanged,
else take the first `max` bytes and append `…`; `none` models the panic of
`&s[..max]` when byte index `max` is not a char boundary. -/
def trim_preview (s : ByteStr) (max : Nat) : Option ByteStr :=
  if s.length ≤ max then some s
  else if is_char_boundary s max then some (s.take max ++ ellipsisBytes)
  else none

/-- The line-match test of `process_file`:
`line.to_lowercase().contains(&needle_lower)`. -/
def lineMatches (needle_lower line : ByteStr) : Bool :=
  containsSub needle_lower (to_lowercase line)

/-- One iteration of the search loop of `process_file` (src/main.rs): `acc` is
`(local_hits, previews printed so far)`, `p` is `(line_no, line)` from
`enumerate()`.  A matching line always bumps `local_hits`; it is printed (with
1-based number) only while `local_hits <= 5`. -/
def searchStep (needle_lower : ByteStr) (acc : Nat × List (Nat × ByteStr))
    (p : Nat × ByteStr) : Nat × List (Nat × ByteStr) :=
  if lineMatches needle_lower p.2 then
    (acc.1 + 1, if acc.1 + 1 ≤ 5 then acc.2 ++ [(p.1 + 1, p.2)] else acc.2)
  else acc

/-- One file's search loop (src/main.rs `process_file`): walk the lines with a
1-based line number, count every matching line in `local_hits`, and record a
preview event (line number, raw line) for the first 5 matches of this file.
The preview's rendering (`path:line:` prefix, `trim_preview`) happens at print
level. -/
def fileSearch (needle_lower : ByteStr) (content : ByteStr) : Nat × List (Nat × ByteStr) :=
  (rustLines content).enum.foldl (searchStep needle_lower) (0, [])

/-- `ScanTotals` (src/main.rs).  The `HashMap` is modelled as an association
list with unique keys; its iteration order is fixed by the list. -/
structure ScanTotals where
  files_scanned : Nat
  total_lines : Nat
  total_bytes : Nat
  hits : Nat
  word_counts : List (ByteStr × Nat)
deriving Repr, DecidableEq

/-- `ScanTotals::default()`. -/
def ScanTotals.default : ScanTotals := ⟨0, 0, 0, 0, []⟩

/-- `Config` (src/main.rs). -/
structure Config where
  path : ByteStr
  ext : Option ByteStr
  top : Nat
  find : Option ByteStr
deriving Repr, DecidableEq

/-- `*totals.word_counts.entry(word).or_insert(0) += 1`. -/
def bumpWord (wc : List (ByteStr × Nat)) (w : ByteStr) : List (ByteStr × Nat) :=
  match wc with
  | [] => [(w, 1)]
  | (k, c) :: rest => if k = w then (k, c + 1) :: rest else (k, c) :: bumpWord rest w

/-- The token list of one file's content.  `fs::read_to_string` guarantees
valid UTF-8, on which `tokenize_words` never fails (`tokenize_words_isSome`);
the `[]` default is unreachable there. -/
def wordsOf (content : ByteStr) : List ByteStr := (tokenize_words content).getD []

/-- `Scanner::process_file` (src/main.rs).  `r` is the outcome of
`fs::read_to_string`: `none` means the read failed, in which case a diagnostic
is printed and the totals are untouched (the error is swallowed, returning
`Ok(())`).  Returns the new totals, the preview events printed, and whether a
read-error diagnostic was printed. -/
def process_file (cfg : Config) (t : ScanTotals) (r : Option ByteStr) :
    ScanTotals × List (Nat × ByteStr) × Bool :=
  match r with
  | none => (t, [], true)
  | some content =>
    let bytes := content.length
    let line_count := (rustLines content).length
    let search :=
      match cfg.find with
      | some needle => fileSearch (to_lowercase needle) content
      | none => (0, [])
    ({ files_scanned := t.files_scanned + 1
       total_lines := t.total_lines + line_count
       total_bytes := t.total_bytes + bytes
       hits := t.hits + search.1
       word_counts := (wordsOf content).foldl bumpWord t.word_counts }, search.2, false)

/-- The per-file part of a scan run: `process_file` over the successive files
the walker feeds in, accumulating totals and concatenating the preview prints
in order. -/
def runFiles (cfg : Config) (t : ScanTotals) (files : List (Option ByteStr)) :
    ScanTotals × List (Nat × ByteStr) :=
  files.foldl
    (fun acc r =>
      let out := process_file cfg acc.1 r
      (out.1, acc.2 ++ out.2.1))
    (t, [])

/-- Rust `Path::extension` of a file name: the portion after the last dot,
`none` when there is no dot, when the only dot starts a hidden file, or for
the special name `..`. -/
def rustExtension (name : ByteStr) : Option ByteStr :=
  if name = [46, 46] then none
  else
    match (name.enum.filter (fun p => p.2 == 46)).getLast? with
    | none => none
    | some (0, _) => none
    | some (k, _) => some (name.drop (k + 1))

/-- The extension filter of `Scanner::walk_dir` (src/main.rs, the
`if let Some(ref want_ext) = self.cfg.ext` block): with a filter configured,
`want_ext.trim_start_matches('.')` must equal
`path.extension().and_then(|s| s.to_str()).unwrap_or("")`; without one, every
file is accepted. -/
def walkAccepts (ext_filter : Option ByteStr) (file_name : ByteStr) : Bool :=
  match ext_filter with
  | none => true
  | some want_ext =>
    (want_ext.dropWhile (fun b => b == 46)) == ((rustExtension file_name).getD [])

/-- The ranked word list printed by `Scanner::print_summary` (src/main.rs):
collect the `word_counts` pairs, `sort_by(|a, b| b.1.cmp(a.1))` — a stable
sort by descending count, modelled by `mergeSort` — and print the first
`cfg.top` of them. -/
def report (word_counts : List (ByteStr × Nat)) (top : Nat) : List (ByteStr × Nat) :=
  (word_counts.mergeSort (fun a b => decide (b.2 ≤ a.2))).take top

/-- ASCII bytes of a literal string (CLI flags and test data are ASCII). -/
def asc (s : String) : ByteStr := s.data.map Char.toNat

/-- Result of `Config::from_args`: a parsed config, an argument error (on
which `main` prints the error and usage and exits with code 2), or the
immediate help exit (usage printed, process exits with code 0). -/
inductive ParseResult where
  | ok (cfg : Config)
  | err
  | help
deriving Repr, DecidableEq

/-- Rust `str::parse::<usize>`: an optional `+` sign followed by at least one
ASCII digit (overflow, which also errors in Rust, is not modelled: `Nat` is
unbounded). -/
def parseUsize (s : ByteStr) : Option Nat :=
  let digits :=
    match s with
    | 43 :: rest => rest
    | _ => s
  if digits = [] then none
  else if digits.all (fun b => decide (48 ≤ b ∧ b ≤ 57)) then
    some (digits.foldl (fun n b => n * 10 + (b - 48)) 0)
  else none

/-- The `while let Some(arg) = args.next()` loop of `Config::from_args`
(src/main.rs); the parameters after `args` are the loop's mutable state. -/
def parseArgsLoop (args : List ByteStr) (path : Option ByteStr) (ext : Option ByteStr)
    (top : Nat) (find : Option ByteStr) : ParseResult :=
  match args with
  | [] =>
    match path with
    | some p => .ok ⟨p, ext, top, find⟩
    | none => .err
  | arg :: rest =>
    if arg = asc "--path" then
      match rest with
      | v :: rest2 => parseArgsLoop rest2 (some v) ext top find
      | [] => .err
    else if arg = asc "--ext" then
      match rest with
      | v :: rest2 => parseArgsLoop rest2 path (some v) top find
      | [] => .err
    else if arg = asc "--top" then
      match rest with
      | v :: rest2 =>
        match parseUsize v with
        | some n => parseArgsLoop rest2 path ext n find
        | none => .err
      | [] => .err
    else if arg = asc "--find" then
      match rest with
      | v :: rest2 => parseArgsLoop rest2 path ext top (some v)
      | [] => .err
    else if arg = asc "--help" ∨ arg = asc "-h" then .help
    else .err

/-- `Config::from_args` (src/main.rs): run the argument loop with the default
state (`top = 10`, everything else unset). -/
def from_args (args : List ByteStr) : ParseResult :=
  parseArgsLoop args none none 10 none

/-- A lowercase word character: lowercase ASCII letter, ASCII digit, or
underscore (what the spec says every emitted token consists of). -/
def is_lower_word_char (b : Nat) : Bool :=
  decide ((97 ≤ b ∧ b ≤ 122) ∨ (48 ≤ b ∧ b ≤ 57) ∨ b = 95)

/-- Sum of all stored word counts. -/
def sumCounts (wc : List (ByteStr × Nat)) : Nat := (wc.map Prod.snd).sum

/-- Total number of tokens the tokenizer produces over all successfully read
files (a failed read contributes nothing). -/
def totalTokens (files : List (Option ByteStr)) : Nat :=
  (files.map (fun r =>
    match r with
    | some c => (wordsOf c).length
    | none => 0)).sum

/-- Count stored for a word in the accumulator (`none` = absent = zero
occurrences). -/
def lookupCount (wc : List (ByteStr × Nat)) (w : ByteStr) : Option Nat :=
  match wc with
  | [] => none
  | (k, c) :: rest => if k = w then some c else lookupCount rest w

/-- A prefix of the argument list that the parsing loop walks through without
stopping: recognized value-taking flags, each with its value present (and
parsable in the case of `--top`). -/
def okPrefix : List ByteStr → Bool
  | [] => true
  | arg :: v :: rest =>
    decide ((arg = asc "--path" ∨ arg = asc "--ext" ∨ arg = asc "--find") ∨
      (arg = asc "--top" ∧ (parseUsize v).isSome = true)) && okPrefix rest
  | _ :: [] => false

theorem lower_byte_word (b : Nat) (h : is_word_char b = true) :
    is_lower_word_char (lower_byte b) = true := by
  simp [is_word_char] at h
  unfold lower_byte
  split_ifs with hb <;> simp [is_lower_word_char] <;> omega

/-- Every token of the specification tokenizer is a nonempty string of
lowercase word characters. -/
theorem tokensSpec_tokens (s : ByteStr) :
    ∀ t ∈ tokensSpec s, t ≠ [] ∧ ∀ b ∈ t, is_lower_word_char b = true := by
  intro t ht
  rw [tokensSpec] at ht
  by_cases h : s.dropWhile (fun b => !is_word_char b) = []
  · rw [dif_pos h] at ht
    simp at ht
  · rw [dif_neg h] at ht
    rcases List.mem_cons.mp ht with h1 | h1
    · subst h1
      obtain ⟨a, t2, hat⟩ := List.exists_cons_of_ne_nil h
      have ha : is_word_char a = true := by
        have h2 := head_of_dropWhile_cons (fun b => !is_word_char b) s a t2 hat
        simpa using h2
      constructor
      · rw [hat, List.takeWhile_cons_of_pos ha]
        simp
      · intro b hb
        simp only [List.mem_map] at hb
        obtain ⟨x, hx, hbx⟩ := hb
        have hxw : is_word_char x = true := List.mem_takeWhile_imp hx
        rw [← hbx]
        exact lower_byte_word x hxw
    · exact tokensSpec_tokens ((s.dropWhile (fun b => !is_word_char b)).dropWhile is_word_char)
        t h1
termination_by s.length
decreasing_by
  have h1 := length_dropWhile_le (fun b => !is_word_char b) s
  obtain ⟨a, t2, hs⟩ := List.exists_cons_of_ne_nil h
  have ha : is_word_char a = true := by
    have h2 := head_of_dropWhile_cons (fun b => !is_word_char b) s a t2 hs
    simpa using h2
  rw [hs] at h1 ⊢
  rw [List.dropWhile_cons_of_pos ha]
  have h3 := length_dropWhile_le is_word_char t2
  simp only [List.length_cons] at h1
  omega

/-- Invariant of the search loop: starting from `local_hits = h0` with
`min 5 h0` previews printed, the loop adds one hit per matching line and keeps
the printed previews at `min 5 local_hits`. -/
theorem searchStep_foldl (needle : ByteStr) :
    ∀ (ps : List (Nat × ByteStr)) (h0 : Nat) (p0 : List (Nat × ByteStr)),
      p0.length = min 5 h0 →
      (ps.foldl (searchStep needle) (h0, p0)).1 =
          h0 + (ps.filter (fun p => lineMatches needle p.2)).length ∧
      (ps.foldl (searchStep needle) (h0, p0)).2.length =
          min 5 (h0 + (ps.filter (fun p => lineMatches needle p.2)).length) := by
  intro ps
  induction ps with
  | nil =>
    intro h0 p0 hp
    simpa using hp
  | cons q qs ih =>
    intro h0 p0 hp
    simp only [List.foldl_cons]
    by_cases hm : lineMatches needle q.2 = true
    · rw [show searchStep needle (h0, p0) q =
          (h0 + 1, if h0 + 1 ≤ 5 then p0 ++ [(q.1 + 1, q.2)] else p0) from by
        simp [searchStep, hm]]
      have hp2 : (if h0 + 1 ≤ 5 then p0 ++ [(q.1 + 1, q.2)] else p0).length =
          min 5 (h0 + 1) := by
        split_ifs with h5
        · simp only [List.length_append, List.length_cons, List.length_nil]
          omega
        · rw [hp]
          omega
      have hrec := ih (h0 + 1) _ hp2
      rw [show (q :: qs).filter (fun p => lineMatches needle p.2) =
          q :: qs.filter (fun p => lineMatches needle p.2) from by
        simp [List.filter_cons, hm]]
      simp only [List.length_cons]
      refine ⟨?_, ?_⟩
      · rw [hrec.1]
        omega
      · rw [hrec.2]
        omega
    · rw [show searchStep needle (h0, p0) q = (h0, p0) from by simp [searchStep, hm]]
      rw [show (q :: qs).filter (fun p => lineMatches needle p.2) =
          qs.filter (fun p => lineMatches needle p.2) from by
        simp [List.filter_cons, hm]]
      exact ih h0 p0 hp

theorem bumpWord_sum (wc : List (ByteStr × Nat)) (w : ByteStr) :
    sumCounts (bumpWord wc w) = sumCounts wc + 1 := by
  induction wc with
  | nil => rfl
  | cons p rest ih =>
    obtain ⟨k, c⟩ := p
    by_cases h : k = w
    · simp only [bumpWord, if_pos h, sumCounts, List.map_cons, List.sum_cons]
      omega
    · simp only [bumpWord, if_neg h, sumCounts, List.map_cons, List.sum_cons] at ih ⊢
      omega

theorem bumpWord_pos (wc : List (ByteStr × Nat)) (w : ByteStr)
    (h : ∀ p ∈ wc, 0 < p.2) : ∀ p ∈ bumpWord wc w, 0 < p.2 := by
  induction wc with
  | nil =>
    intro p hp
    simp [bumpWord] at hp
    rw [hp]
    simp
  | cons q rest ih =>
    obtain ⟨k, c⟩ := q
    intro p hp
    by_cases hk : k = w
    · rw [bumpWord, if_pos hk] at hp
      rcases List.mem_cons.mp hp with h1 | h1
      · rw [h1]
        simp
      · exact h p (List.mem_cons_of_mem _ h1)
    · rw [bumpWord, if_neg hk] at hp
      rcases List.mem_cons.mp hp with h1 | h1
      · rw [h1]
        exact h (k, c) (List.mem_cons_self _ _)
      · exact ih (fun q hq => h q (List.mem_cons_of_mem _ hq)) p h1

theorem foldl_bumpWord_sum (ws : List ByteStr) :
    ∀ wc, sumCounts (ws.foldl bumpWord wc) = sumCounts wc + ws.length := by
  induction ws with
  | nil =>
    intro wc
    simp
  | cons w ws ih =>
    intro wc
    simp only [List.foldl_cons, List.length_cons]
    rw [ih, bumpWord_sum]
    omega

theorem foldl_bumpWord_pos (ws : List ByteStr) :
    ∀ wc, (∀ p ∈ wc, 0 < p.2) → ∀ p ∈ ws.foldl bumpWord wc, 0 < p.2 := by
  induction ws with
  | nil =>
    intro wc h
    exact h
  | cons w ws ih =>
    intro wc h
    simp only [List.foldl_cons]
    exact ih _ (bumpWord_pos wc w h)

theorem lookupCount_bumpWord (wc : List (ByteStr × Nat)) (w w2 : ByteStr) :
    lookupCount (bumpWord wc w) w2 =
      if w2 = w then some ((lookupCount wc w).getD 0 + 1) else lookupCount wc w2 := by
  induction wc with
  | nil =>
    by_cases h : w2 = w
    · simp [bumpWord, lookupCount, h]
    · have h2 : ¬ w = w2 := fun hh => h hh.symm
      simp [bumpWord, lookupCount, h, h2]
  | cons q rest ih =>
    obtain ⟨k, c⟩ := q
    by_cases hk : k = w
    · subst hk
      by_cases hw : w2 = k
      · subst hw
        simp [bumpWord, lookupCount]
      · have h2 : ¬ k = w2 := fun hh => hw hh.symm
        simp [bumpWord, lookupCount, hw, h2]
    · by_cases hw : w2 = w
      · subst hw
        have hkw2 : ¬ k = w2 := hk
        simp only [bumpWord, if_neg hk, lookupCount, if_neg hkw2, ih, if_pos rfl]
      · by_cases hkw2 : k = w2
        · simp [bumpWord, if_neg hk, lookupCount, hkw2, hw]
        · simp [bumpWord, if_neg hk, lookupCount, hkw2, hw, ih]

theorem lookupCount_foldl_bumpWord_le (ws : List ByteStr) :
    ∀ (wc : List (ByteStr × Nat)) (w : ByteStr) (c : Nat),
      lookupCount wc w = some c →
      ∃ c2, lookupCount (ws.foldl bumpWord wc) w = some c2 ∧ c ≤ c2 := by
  induction ws with
  | nil =>
    intro wc w c h
    exact ⟨c, h, Nat.le_refl c⟩
  | cons x xs ih =>
    intro wc w c h
    simp only [List.foldl_cons]
    by_cases hx : w = x
    · have h2 : lookupCount (bumpWord wc x) w = some ((lookupCount wc x).getD 0 + 1) := by
        rw [lookupCount_bumpWord, if_pos hx]
      have hle : c ≤ (lookupCount wc x).getD 0 + 1 := by
        subst hx
        rw [h]
        simp
      obtain ⟨c2, hc2, hle2⟩ := ih (bumpWord wc x) w _ h2
      exact ⟨c2, hc2, by omega⟩
    · have h2 : lookupCount (bumpWord wc x) w = some c := by
        rw [lookupCount_bumpWord, if_neg hx, h]
      exact ih _ w c h2

/-- The totals component of a run is a fold of `process_file`'s totals alone
(the accumulated previews do not influence it). -/
theorem runFiles_totals (cfg : Config) :
    ∀ (files : List (Option ByteStr)) (t : ScanTotals) (ps : List (Nat × ByteStr)),
      (files.foldl (fun acc r =>
          let out := process_file cfg acc.1 r
          (out.1, acc.2 ++ out.2.1)) (t, ps)).1 =
        files.foldl (fun tt r => (process_file cfg tt r).1) t := by
  intro files
  induction files with
  | nil =>
    intro t ps
    rfl
  | cons f fs ih =>
    intro t ps
    simp only [List.foldl_cons]
    exact ih _ _

theorem runTotals_words (cfg : Config) :
    ∀ (files : List (Option ByteStr)) (t : ScanTotals),
      sumCounts (files.foldl (fun tt r => (process_file cfg tt r).1) t).word_counts =
        sumCounts t.word_counts + totalTokens files ∧
      ((∀ p ∈ t.word_counts, 0 < p.2) →
        ∀ p ∈ (files.foldl (fun tt r => (process_file cfg tt r).1) t).word_counts, 0 < p.2) := by
  intro files
  induction files with
  | nil =>
    intro t
    constructor
    · simp [totalTokens]
    · intro h
      exact h
  | cons f fs ih =>
    intro t
    simp only [List.foldl_cons]
    cases f with
    | none =>
      have hstep : (process_file cfg t none).1 = t := rfl
      rw [hstep]
      have hrec := ih t
      constructor
      · rw [hrec.1]
        simp [totalTokens]
      · exact hrec.2
    | some c =>
      have hwc : ((process_file cfg t (some c)).1).word_counts =
          (wordsOf c).foldl bumpWord t.word_counts := rfl
      have hrec := ih ((process_file cfg t (some c)).1)
      constructor
      · rw [hrec.1, hwc, foldl_bumpWord_sum]
        simp [totalTokens]
        omega
      · intro hpos
        refine hrec.2 ?_
        rw [hwc]
        exact foldl_bumpWord_pos _ _ hpos

theorem parseArgsLoop_path (v : ByteStr) (rest : List ByteStr) (path ext : Option ByteStr)
    (top : Nat) (find : Option ByteStr) :
    parseArgsLoop (asc "--path" :: v :: rest) path ext top find =
      parseArgsLoop rest (some v) ext top find := by
  rw [parseArgsLoop.eq_def]
  simp

theorem parseArgsLoop_ext (v : ByteStr) (rest : List ByteStr) (path ext : Option ByteStr)
    (top : Nat) (find : Option ByteStr) :
    parseArgsLoop (asc "--ext" :: v :: rest) path ext top find =
      parseArgsLoop rest path (some v) top find := by
  rw [parseArgsLoop.eq_def]
  simp [show asc "--ext" ≠ asc "--path" from by decide]

theorem parseArgsLoop_top (v : ByteStr) (rest : List ByteStr) (path ext : Option ByteStr)
    (top : Nat) (find : Option ByteStr) (n : Nat) (hv : parseUsize v = some n) :
    parseArgsLoop (asc "--top" :: v :: rest) path ext top find =
      parseArgsLoop rest path ext n find := by
  rw [parseArgsLoop.eq_def]
  simp [show asc "--top" ≠ asc "--path" from by decide,
    show asc "--top" ≠ asc "--ext" from by decide, hv]

theorem parseArgsLoop_find (v : ByteStr) (rest : List ByteStr) (path ext : Option ByteStr)
    (top : Nat) (find : Option ByteStr) :
    parseArgsLoop (asc "--find" :: v :: rest) path ext top find =
      parseArgsLoop rest path ext top (some v) := by
  rw [parseArgsLoop.eq_def]
  simp [show asc "--find" ≠ asc "--path" from by decide,
    show asc "--find" ≠ asc "--ext" from by decide,
    show asc "--find" ≠ asc "--top" from by decide]

theorem parseArgsLoop_helpHead (flag : ByteStr)
    (hflag : flag = asc "--help" ∨ flag = asc "-h") (post : List ByteStr)
    (path ext : Option ByteStr) (top : Nat) (find : Option ByteStr) :
    parseArgsLoop (flag :: post) path ext top find = ParseResult.help := by
  rcases hflag with h | h <;> subst h <;> rw [parseArgsLoop.eq_def]
  · simp [show asc "--help" ≠ asc "--path" from by decide,
      show asc "--help" ≠ asc "--ext" from by decide,
      show asc "--help" ≠ asc "--top" from by decide,
      show asc "--help" ≠ asc "--find" from by decide]
  · simp [show asc "-h" ≠ asc "--path" from by decide,
      show asc "-h" ≠ asc "--ext" from by decide,
      show asc "-h" ≠ asc "--top" from by decide,
      show asc "-h" ≠ asc "--find" from by decide]

/-- Whenever the parsing loop reaches a `-h`/`--help` token — i.e. all earlier
tokens form recognized flag/value pairs — it stops with the help exit, whatever
the loop state and whatever follows the flag. -/
theorem parseArgsLoop_help : ∀ (pre : List ByteStr), okPrefix pre = true →
    ∀ (flag : ByteStr), (flag = asc "--help" ∨ flag = asc "-h") →
    ∀ (post : List ByteStr) (path ext : Option ByteStr) (top : Nat) (find : Option ByteStr),
      parseArgsLoop (pre ++ flag :: post) path ext top find = ParseResult.help := by
  intro pre hpre flag hflag post path ext top find
  match pre, hpre with
  | [], _ =>
    simp only [List.nil_append]
    exact parseArgsLoop_helpHead flag hflag post path ext top find
  | arg :: v :: rest, hpre =>
    have h2 : ((arg = asc "--path" ∨ arg = asc "--ext" ∨ arg = asc "--find") ∨
        (arg = asc "--top" ∧ (parseUsize v).isSome = true)) ∧ okPrefix rest = true := by
      simpa [okPrefix] using hpre
    obtain ⟨hargs, hrest⟩ := h2
    simp only [List.cons_append]
    rcases hargs with (h | h | h) | ⟨h, hv⟩
    · subst h
      rw [parseArgsLoop_path]
      exact parseArgsLoop_help rest hrest flag hflag post _ _ _ _
    · subst h
      rw [parseArgsLoop_ext]
      exact parseArgsLoop_help rest hrest flag hflag post _ _ _ _
    · subst h
      rw [parseArgsLoop_find]
      exact parseArgsLoop_help rest hrest flag hflag post _ _ _ _
    · subst h
      obtain ⟨n, hn⟩ := Option.isSome_iff_exists.mp hv
      rw [parseArgsLoop_top v (rest ++ flag :: post) path ext top find n hn]
      exact parseArgsLoop_help rest hrest flag hflag post _ _ _ _
  | [a], hpre =>
    rw [okPrefix] at hpre
    simp at hpre
termination_by pre => pre.length

/-- A configuration that searches for "foo" (used in concrete scenarios). -/
def fooCfg : Config := ⟨asc ".", none, 10, some (asc "foo")⟩

/-- A file whose 7 lines all match "foo". -/
def sevenFoo : ByteStr := asc "foo\nfoo\nfoo\nfoo\nfoo\nfoo\nfoo"

/-- A file whose 4 lines all match "foo". -/
def fourFoo : ByteStr := asc "foo\nfoo\nfoo\nfoo"

/-- A file whose 3 lines all match "foo". -/
def threeFoo : ByteStr := asc "foo\nfoo\nfoo"

/-- 119 `a`s followed by the two UTF-8 bytes of `é`: a valid 121-byte,
120-character line whose byte index 120 falls inside the final character. -/
def panicLine : ByteStr := List.replicate 119 97 ++ [195, 169]

/-- A 130-character ASCII line. -/
def longAscii : ByteStr := List.replicate 130 97

/-- The UTF-8 bytes of "héllo". -/
def accented : ByteStr := [104, 195, 169, 108, 108, 111]

/-- C1: the claim says at most 5 previews are printed per RUN.  In the code the
5-preview cap is governed by `local_hits`, a counter local to `process_file`
and reset for every file: searching two files with 4 and 3 matching lines (7
matches in the run) prints 7 previews, not 5, while the hit count is 7. -/
theorem claim_C1_counterexample :
    (runFiles fooCfg ScanTotals.default [some fourFoo, some threeFoo]).1.hits = 7 ∧
    (runFiles fooCfg ScanTotals.default [some fourFoo, some threeFoo]).2.length = 7 ∧
    ¬ (runFiles fooCfg ScanTotals.default [some fourFoo, some threeFoo]).2.length ≤ 5 :=
  ⟨by decide, by decide, by decide⟩

/-- C1 (amended): the 5-preview cap is per FILE: one ingest with a search term
prints a preview for exactly `min 5 (number of matching lines of that file)`
lines, while the hit counter is increased by every matching line of the file.
(With all 7 matching lines in a single file this gives 5 previews and 7 hits.) -/
theorem claim_C1_preview_cap (cfg : Config) (t : ScanTotals) (content needle : ByteStr)
    (hfind : cfg.find = some needle) :
    (process_file cfg t (some content)).1.hits =
        t.hits + ((rustLines content).enum.filter
          (fun p => lineMatches (to_lowercase needle) p.2)).length ∧
    (process_file cfg t (some content)).2.1.length =
        min 5 ((rustLines content).enum.filter
          (fun p => lineMatches (to_lowercase needle) p.2)).length := by
  have haux := searchStep_foldl (to_lowercase needle) (rustLines content).enum 0 [] (by simp)
  have h1 : (fileSearch (to_lowercase needle) content).1 =
      ((rustLines content).enum.filter
        (fun p => lineMatches (to_lowercase needle) p.2)).length := by
    unfold fileSearch
    rw [haux.1]
    omega
  have h2 : (fileSearch (to_lowercase needle) content).2.length =
      min 5 ((rustLines content).enum.filter
        (fun p => lineMatches (to_lowercase needle) p.2)).length := by
    unfold fileSearch
    rw [haux.2]
    omega
  have hpf : process_file cfg t (some content) =
      ({ files_scanned := t.files_scanned + 1
         total_lines := t.total_lines + (rustLines content).length
         total_bytes := t.total_bytes + content.length
         hits := t.hits + (fileSearch (to_lowercase needle) content).1
         word_counts := (wordsOf content).foldl bumpWord t.word_counts },
        (fileSearch (to_lowercase needle) content).2, false) := by
    unfold process_file
    rw [hfind]
  rw [hpf]
  exact ⟨by rw [h1], by rw [h2]⟩

theorem claim_C1_preview_cap_witness :
    fooCfg.find = some (asc "foo") ∧
    ((process_file fooCfg ScanTotals.default (some sevenFoo)).1.hits =
        ScanTotals.default.hits + ((rustLines sevenFoo).enum.filter
          (fun p => lineMatches (to_lowercase (asc "foo")) p.2)).length ∧
      (process_file fooCfg ScanTotals.default (some sevenFoo)).2.1.length =
        min 5 ((rustLines sevenFoo).enum.filter
          (fun p => lineMatches (to_lowercase (asc "foo")) p.2)).length) :=
  ⟨rfl, claim_C1_preview_cap fooCfg ScanTotals.default sevenFoo (asc "foo") rfl⟩

/-- C2: the claim says `trim_preview` is total and truncates to 120
CHARACTERS.  The code compares and slices BYTES: on `panicLine` — a valid
UTF-8 line of exactly 120 characters but 121 bytes — `&s[..120]` slices into
the middle of the final two-byte character and panics, so the function is
neither total nor character-based (the claim would require the 120-character
line back unchanged). -/
theorem claim_C2_counterexample :
    validUtf8 panicLine = true ∧
    panicLine.length = 121 ∧
    trim_preview panicLine 120 = none :=
  ⟨by decide, by decide, by decide⟩

/-- C2 (amended): `trim_preview` is byte-based: a line of at most 120 BYTES is
returned unchanged, a longer one is cut at byte 120 (plus `…`) when that byte
offset is a char boundary, and the slice panics otherwise.  On ASCII lines
(characters = bytes) this realizes the claim: total, identity up to 120
characters, first 120 characters plus ellipsis beyond. -/
theorem claim_C2_trim_preview (s : ByteStr) (hascii : ∀ b ∈ s, b < 128) :
    trim_preview s 120 =
      some (if s.length ≤ 120 then s else s.take 120 ++ ellipsisBytes) := by
  unfold trim_preview
  by_cases h : s.length ≤ 120
  · rw [if_pos h, if_pos h]
  · have h120 : 120 < s.length := by omega
    have hb : is_char_boundary s 120 = true := by
      have hmem := hascii s[120] (List.getElem_mem h120)
      exact boundary_of_getElem? s 120 s[120] (List.getElem?_eq_getElem h120) (Or.inl hmem)
    rw [if_neg h, if_pos hb, if_neg h]

theorem claim_C2_trim_preview_witness :
    (∀ b ∈ longAscii, b < 128) ∧
    trim_preview longAscii 120 =
      some (if longAscii.length ≤ 120 then longAscii
        else longAscii.take 120 ++ ellipsisBytes) :=
  ⟨by decide, claim_C2_trim_preview longAscii (by decide)⟩

/-- C3: a file seen by the walker is ingested iff no extension filter is
configured or the filter, with its leading dot(s) stripped, equals the file's
extension byte-for-byte (case-sensitively); an extensionless file (extension
"") is skipped by `--ext .log`, `a.log` passes it, and the comparison is
case-sensitive (`--ext LOG` rejects `a.log`). -/
theorem claim_C3_ext_filter :
    (∀ (ext_filter : Option ByteStr) (name : ByteStr),
      walkAccepts ext_filter name = true ↔
        (ext_filter = none ∨
          ∃ e, ext_filter = some e ∧
            e.dropWhile (fun b => b == 46) = (rustExtension name).getD [])) ∧
    walkAccepts (some (asc ".log")) (asc "data") = false ∧
    walkAccepts (some (asc ".log")) (asc "a.log") = true ∧
    walkAccepts (some (asc "LOG")) (asc "a.log") = false ∧
    walkAccepts none (asc "data") = true := by
  refine ⟨?_, by decide, by decide, by decide, by decide⟩
  intro ext_filter name
  cases ext_filter with
  | none => simp [walkAccepts]
  | some e => simp [walkAccepts]

/-- C4: whenever `tokenize_words` returns, its output is exactly the maximal
word-character runs of the input, lowercased, in order — so every token is
nonempty and consists solely of lowercase ASCII letters, digits and
underscores. -/
theorem claim_C4_tokenize_shape (s : ByteStr) (toks : List ByteStr)
    (h : tokenize_words s = some toks) :
    toks = tokensSpec s ∧ ∀ t ∈ toks, t ≠ [] ∧ ∀ b ∈ t, is_lower_word_char b = true := by
  have h1 := tokenize_words_eq_tokensSpec s toks h
  refine ⟨h1, ?_⟩
  rw [h1]
  exact tokensSpec_tokens s

theorem claim_C4_tokenize_shape_witness :
    tokenize_words (asc "Error: code=42!!") = some [asc "error", asc "code", asc "42"] ∧
    ([asc "error", asc "code", asc "42"] = tokensSpec (asc "Error: code=42!!") ∧
      ∀ t ∈ [asc "error", asc "code", asc "42"],
        t ≠ [] ∧ ∀ b ∈ t, is_lower_word_char b = true) :=
  ⟨by decide, claim_C4_tokenize_shape (asc "Error: code=42!!")
    [asc "error", asc "code", asc "42"] (by decide)⟩

/-- C5: the ranked list printed by `print_summary` has exactly
`min top (number of stored entries)` entries (the entries of `word_counts`
are its distinct words), is sorted by non-increasing count, and as a pure
function of the totals is deterministic across repeated calls. -/
theorem claim_C5_report (wc : List (ByteStr × Nat)) (top : Nat) :
    (report wc top).length = min top wc.length ∧
    (report wc top).Pairwise (fun a b => b.2 ≤ a.2) ∧
    report wc top = report wc top := by
  refine ⟨?_, ?_, rfl⟩
  · unfold report
    rw [List.length_take, List.length_mergeSort]
  · unfold report
    have hs : (wc.mergeSort (fun a b => decide (b.2 ≤ a.2))).Pairwise
        (fun a b : ByteStr × Nat => decide (b.2 ≤ a.2) = true) :=
      List.sorted_mergeSort
        (fun a b c h1 h2 => by
          simp only [decide_eq_true_eq] at h1 h2 ⊢
          omega)
        (fun a b => by
          simp only [Bool.or_eq_true, decide_eq_true_eq]
          omega) wc
    have hs2 : (wc.mergeSort (fun a b => decide (b.2 ≤ a.2))).Pairwise
        (fun a b : ByteStr × Nat => b.2 ≤ a.2) := by
      refine hs.imp ?_
      intro a b hab
      simpa using hab
    exact hs2.sublist (List.take_sublist top _)

/-- C6: starting from a fresh accumulator, after ingesting any sequence of
files every stored word count is strictly positive (absent words mean zero),
and the counts sum to the total number of tokens the tokenizer produced over
all successfully read files. -/
theorem claim_C6_word_counts (cfg : Config) (files : List (Option ByteStr)) :
    (∀ p ∈ (runFiles cfg ScanTotals.default files).1.word_counts, 0 < p.2) ∧
    sumCounts (runFiles cfg ScanTotals.default files).1.word_counts = totalTokens files := by
  unfold runFiles
  rw [runFiles_totals]
  have h := runTotals_words cfg files ScanTotals.default
  refine ⟨h.2 ?_, ?_⟩
  · intro p hp
    simp [ScanTotals.default] at hp
  · rw [h.1]
    simp [sumCounts, ScanTotals.default]

theorem claim_C6_word_counts_witness :
    (∀ p ∈ (runFiles fooCfg ScanTotals.default
        [some (asc "cat dog cat"), none]).1.word_counts, 0 < p.2) ∧
    sumCounts (runFiles fooCfg ScanTotals.default
        [some (asc "cat dog cat"), none]).1.word_counts =
      totalTokens [some (asc "cat dog cat"), none] :=
  claim_C6_word_counts fooCfg [some (asc "cat dog cat"), none]

/-- C7: a failed per-file read is non-fatal and leaves the accumulator
untouched: the run over `pre ++ [failed read] ++ post` equals the run over
`pre ++ post` (totals and previews alike), the totals after processing the
failed file are exactly the totals before it, no preview is printed for it,
and the read-error diagnostic is emitted. -/
theorem claim_C7_read_error (cfg : Config) (t : ScanTotals)
    (pre post : List (Option ByteStr)) :
    runFiles cfg t (pre ++ none :: post) = runFiles cfg t (pre ++ post) ∧
    (process_file cfg t none).1 = t ∧
    (process_file cfg t none).2.1 = [] ∧
    (process_file cfg t none).2.2 = true := by
  refine ⟨?_, rfl, rfl, rfl⟩
  unfold runFiles
  rw [List.foldl_append, List.foldl_append, List.foldl_cons]
  congr 1
  simp [process_file]

/-- C8: the claim says `-h`/`--help` exits with the usage text independently
of all other flags.  The loop handles flags left to right: an unknown flag
BEFORE the help flag errors out (exit 2) without ever seeing `-h`, and a `-h`
in value position is consumed as that value (here: as the path). -/
theorem claim_C8_counterexample :
    from_args [asc "--bogus", asc "-h"] = ParseResult.err ∧
    from_args [asc "--path", asc "-h"] =
      ParseResult.ok ⟨asc "-h", none, 10, none⟩ :=
  ⟨by decide, by decide⟩

/-- C8 (amended): `-h`/`--help` triggers the immediate help exit whenever the
parser reaches it, i.e. whenever everything before it consists of recognized
flags with their values present (and parsable for `--top`); everything AFTER
the help flag — unknown flags, missing values, a missing `--path` — is
irrelevant. -/
theorem claim_C8_help (pre post : List ByteStr) (flag : ByteStr)
    (hpre : okPrefix pre = true) (hflag : flag = asc "--help" ∨ flag = asc "-h") :
    from_args (pre ++ flag :: post) = ParseResult.help :=
  parseArgsLoop_help pre hpre flag hflag post none none 10 none

theorem claim_C8_help_witness :
    okPrefix [asc "--ext", asc ".log"] = true ∧
    ((asc "-h" : ByteStr) = asc "--help" ∨ (asc "-h" : ByteStr) = asc "-h") ∧
    from_args ([asc "--ext", asc ".log"] ++ asc "-h" :: [asc "--bogus"]) = ParseResult.help :=
  ⟨by decide, Or.inr rfl,
    claim_C8_help [asc "--ext", asc ".log"] [asc "--bogus"] (asc "-h") (by decide) (Or.inr rfl)⟩

/-- C9: the tokenizer is total on valid UTF-8 input: word characters are
ASCII, so both ends of every sliced run fall on character boundaries and
`tokenize_words` never fails. -/
theorem claim_C9_tokenizer_total (s : ByteStr) (hv : validUtf8 s = true) :
    ∃ toks, tokenize_words s = some toks :=
  Option.isSome_iff_exists.mp (tokenize_words_isSome s hv)

theorem claim_C9_tokenizer_total_witness :
    validUtf8 accented = true ∧ ∃ toks, tokenize_words accented = some toks :=
  ⟨by decide, claim_C9_tokenizer_total accented (by decide)⟩

/-- C10: a successful ingest bumps `files_scanned` by exactly one and is
monotone everywhere else: lines, bytes and hits never decrease, and every word
already present keeps a count at least as large (no word is removed). -/
theorem claim_C10_ingest_monotone (cfg : Config) (t : ScanTotals) (content : ByteStr) :
    (process_file cfg t (some content)).1.files_scanned = t.files_scanned + 1 ∧
    t.total_lines ≤ (process_file cfg t (some content)).1.total_lines ∧
    t.total_bytes ≤ (process_file cfg t (some content)).1.total_bytes ∧
    t.hits ≤ (process_file cfg t (some content)).1.hits ∧
    ∀ w c, lookupCount t.word_counts w = some c →
      ∃ c2, lookupCount (process_file cfg t (some content)).1.word_counts w = some c2 ∧
        c ≤ c2 := by
  refine ⟨rfl, Nat.le_add_right _ _, Nat.le_add_right _ _, Nat.le_add_right _ _, ?_⟩
  intro w c hc
  exact lookupCount_foldl_bumpWord_le (wordsOf content) t.word_counts w c hc

theorem claim_C10_ingest_monotone_witness :
    (process_file fooCfg ScanTotals.default (some sevenFoo)).1.files_scanned =
        ScanTotals.default.files_scanned + 1 ∧
    ScanTotals.default.total_lines ≤
        (process_file fooCfg ScanTotals.default (some sevenFoo)).1.total_lines ∧
    ScanTotals.default.total_bytes ≤
        (process_file fooCfg ScanTotals.default (some sevenFoo)).1.total_bytes ∧
    ScanTotals.default.hits ≤ (process_file fooCfg ScanTotals.default (some sevenFoo)).1.hits ∧
    ∀ w c, lookupCount ScanTotals.default.word_counts w = some c →
      ∃ c2, lookupCount
          (process_file fooCfg ScanTotals.default (some sevenFoo)).1.word_counts w = some c2 ∧
        c ≤ c2 :=
  claim_C10_ingest_monotone fooCfg ScanTotals.default sevenFoo

end LogBuddy
